import Mathlib

/-!
# Verification of the llm-app client-side optimistic collection cache

A shallow embedding of the core of the `llm-app` web client:

* the transport adapter `useApi` (`src/hooks/useApi.ts`),
* the single-resource fetch cache `useApiQuery` (`src/hooks/useApiQuery.ts`),
* the collection mutation cache `useApiCollection` with its synchronous
  reconciliation primitive `updateCollection` (`src/hooks/useApi.ts`),
* the streaming reply synchronizer `callReply` and the message-edit flow
  `handleUpdateMessage` of the Chat page.

Entities carry a string identifier; reconciliation is computed in terms of
that identifier only, mirroring the TypeScript `getId` accessor.
-/

namespace LlmApp

/-- The `Message` entity of `src/models/Message.ts`: an identifier, a role
(`user`/`assistant`/`system`/`tool`) and a text content.  The optional file
attachments play no role in reconciliation and are omitted. -/
structure Message where
  id : String
  role : String
  content : String
deriving DecidableEq, Repr

section UpdateCollection

variable {T : Type} (getId : T → String)

/-- The reconciliation primitive `updateCollection` of `useApiCollection`
(`src/hooks/useApi.ts`).  `old.findIndex === -1` is modelled by
`List.findIdx? = none`.

```ts
const id = getId(item);
const index = old.findIndex((i) => getId(i) === id);
if (removeItem) {
  if (index === -1) return old;
  else return old.filter((i) => getId(i) !== id);
}
if (index === -1) return [...old, item];
else return old.map((i) => (getId(i) === id ? item : i));
```
-/
def updateCollection (item : T) (removeItem : Bool) (old : List T) : List T :=
  let id := getId item
  let index := old.findIdx? (fun i => getId i == id)
  if removeItem then
    match index with
    | none => old
    | some _ => old.filter (fun i => getId i != id)
  else
    match index with
    | none => old ++ [item]
    | some _ => old.map (fun i => if getId i == id then item else i)

end UpdateCollection

/-! ## Streaming reply synchronizer (`callReply`, Chat page)

`callReply` first inserts a placeholder assistant message with a temporary
identifier, then reads the streamed chunks.  Each decoded chunk is either a
`{delta}` (append to the accumulated buffer and rewrite the placeholder) or a
`{message}` (insert the authoritative message, remove the placeholder by its
temporary identifier, and stop reading). -/

/-- A decoded stream chunk: `{delta: string}` or `{message: Message}`. -/
inductive Chunk where
  | delta (s : String)
  | message (m : Message)
deriving DecidableEq, Repr

/-- The initial placeholder inserted by `callReply`:
`{ role: 'assistant', content: 'Thinking...', id: assistantTmpId }`. -/
def thinkingPlaceholder (tmpId : String) : Message :=
  ⟨tmpId, "assistant", "Thinking..."⟩

/-- The chunk-processing loop of `callReply`, returning the successive cache
states (one per `updateCollection` call, in order).  `acc` is the
`assistantContent` accumulator.  A `message` chunk produces two states
(insert the authoritative message, then remove the placeholder) and breaks
out of the loop. -/
def replyLoop (tmpId : String) : List Chunk → String → List Message → List (List Message)
  | [], _, _ => []
  | Chunk.message m :: _, _, cache =>
      let c1 := updateCollection Message.id m false cache
      let c2 := updateCollection Message.id ⟨tmpId, "assistant", ""⟩ true c1
      [c1, c2]
  | Chunk.delta d :: rest, acc, cache =>
      let acc2 := acc ++ d
      let c1 := updateCollection Message.id ⟨tmpId, "assistant", acc2⟩ false cache
      c1 :: replyLoop tmpId rest acc2 c1

/-- All cache states observed during one `callReply` run: the state after the
placeholder insertion, followed by the state after each reconciliation done
by the chunk loop. -/
def callReplyStates (tmpId : String) (chunks : List Chunk) (init : List Message) :
    List (List Message) :=
  let c0 := updateCollection Message.id (thinkingPlaceholder tmpId) false init
  c0 :: replyLoop tmpId chunks "" c0

/-- `true` when the stream contains an authoritative `{message}` chunk, so the
loop reaches its terminal placeholder-removal step. -/
def hasMessageChunk (chunks : List Chunk) : Bool :=
  chunks.any (fun c => match c with | Chunk.message _ => true | _ => false)

/-- Number of entries of a cache carrying a given identifier. -/
def countId (gid : String) (l : List Message) : Nat :=
  (l.filter (fun m => m.id == gid)).length

/-! ## Mutations of the collection cache (`useApiCollection`)

Each mutation performs the network call first and reconciles only in its
`onSuccess` handler; a non-2xx response throws and leaves the cache alone.
A run is modelled as the pair (cache afterwards, outcome). -/

/-- An HTTP response as seen by the mutation functions: the `ok` flag
(2xx status) and the decoded JSON body. -/
structure Response (α : Type) where
  ok : Bool
  body : α
deriving DecidableEq, Repr

/-- `addMutation`: POST the item; on success reconcile the returned full
entity into the cached list, otherwise throw `Failed to add item`. -/
def addItemRun (res : Response Message) (cache : List Message) :
    List Message × Except String Message :=
  if res.ok then
    (updateCollection Message.id res.body false cache, Except.ok res.body)
  else
    (cache, Except.error "Failed to add item")

/-- `updateMutation`: PATCH the fields; on success reconcile the returned
entity by identifier, otherwise throw `Failed to update item`. -/
def updateItemRun (res : Response Message) (cache : List Message) :
    List Message × Except String Message :=
  if res.ok then
    (updateCollection Message.id res.body false cache, Except.ok res.body)
  else
    (cache, Except.error "Failed to update item")

/-- `removeMutation`: DELETE by identifier; on success remove the matching
entry (`updateCollection({id}, true)`), otherwise throw
`Failed to remove item`. -/
def removeItemRun (res : Response Unit) (gid : String) (cache : List Message) :
    List Message × Except String String :=
  if res.ok then
    (updateCollection Message.id ⟨gid, "", ""⟩ true cache, Except.ok gid)
  else
    (cache, Except.error "Failed to remove item")

/-! ## The message-edit flow (`handleUpdateMessage`, Chat page)

`handleUpdateMessage` awaits the PATCH of the edited message, reads the
cached list back, removes every message after the edited one (awaiting each
DELETE in order), and only then calls `callReply`. -/

/-- Network events issued by the edit flow, in order. -/
inductive Ev where
  | patchReq (id : String)
  | deleteReq (id : String)
  | replyReq
deriving DecidableEq, Repr

/-- The `for (const m of toRemove) await removeMessage(m.id)` loop: each
iteration issues a DELETE and reconciles the removal into the cache. -/
def removeLoop : List Message → List Message → List Ev × List Message
  | [], cache => ([], cache)
  | m :: rest, cache =>
      let c2 := updateCollection Message.id ⟨m.id, "", ""⟩ true cache
      let p := removeLoop rest c2
      (Ev.deleteReq m.id :: p.1, p.2)

/-- `handleUpdateMessage(id, content)` with a successful PATCH whose response
body is `server`: reconcile the server's updated message, truncate everything
after it, then issue the reply request.  Returns the ordered event trace
(ending in `replyReq`) and the cache state at the instant the reply request
is issued.  `msgs.slice(index + 1)` becomes `drop (i + 1)` (and `slice 0`,
i.e. the whole list, when `findIndex` returns `-1`). -/
def handleUpdateMessage (id : String) (server : Message) (cache : List Message) :
    List Ev × List Message :=
  let c1 := updateCollection Message.id server false cache
  let toRemove :=
    match c1.findIdx? (fun m => m.id == id) with
    | none => c1
    | some i => c1.drop (i + 1)
  let p := removeLoop toRemove c1
  (Ev.patchReq id :: p.1 ++ [Ev.replyReq], p.2)

/-! ## Transport adapter (`useApi`)

`useApi` returns a fetch wrapper that prefixes the configured base URL and
sets the `Authorization` header from the session token when the token is
truthy (non-null and non-empty). -/

/-- The request options the wrapper receives (`RequestInit`): method, headers
as name/value pairs, body.  Header names compare case-insensitively, as in
the `Headers` class. -/
structure RequestOptions where
  method : Option String
  headers : List (String × String)
  body : Option String
deriving DecidableEq, Repr

/-- ASCII-lowercased code points of a header name; header names compare
case-insensitively (byte-lowercase), as in the `Headers` class. -/
def lowerName (s : String) : List Nat :=
  s.data.map (fun c => if 65 ≤ c.toNat ∧ c.toNat ≤ 90 then c.toNat + 32 else c.toNat)

/-- `Headers.set(name, value)`: drop every existing header whose name matches
case-insensitively and record the new name/value pair.  (The `Headers` class
replaces the value of an existing header; entry order inside the header map
is not observable by the claims considered here.) -/
def headersSet (name value : String) (hs : List (String × String)) :
    List (String × String) :=
  hs.filter (fun p => lowerName p.1 != lowerName name) ++ [(name, value)]

/-- JavaScript truthiness of the `token : string | null` from the auth
context: `null` and the empty string are falsy. -/
def tokenTruthy : Option String → Bool
  | none => false
  | some t => !(t == "")

/-- The network call the wrapper finally issues: target URL and options. -/
structure FetchCall where
  url : String
  options : RequestOptions
deriving DecidableEq, Repr

/-- The wrapper returned by `useApi`:

```ts
const headers = new Headers(options.headers || {});
if (token) headers.set('Authorization', `Bearer ${token}`);
return fetch(`${baseUrl}${path}`, { ...options, headers });
``` -/
def useApiFetch (baseUrl : String) (token : Option String) (path : String)
    (options : RequestOptions) : FetchCall :=
  let headers :=
    if tokenTruthy token then
      headersSet "Authorization" ("Bearer " ++ token.getD "") options.headers
    else
      options.headers
  { url := baseUrl ++ path, options := { options with headers := headers } }

/-! ## Single-resource fetch cache (`useApiQuery`) -/

/-- Modelled from the spec: the external query-cache library (`useQuery`),
which is not part of this repository, runs the query function and caches its
value when `enabled` is true and "skips the fetch otherwise", exposing no
data.  The query function reports the network requests it issues alongside
its value. -/
def runUseQuery {α : Type} (enabled : Bool) (queryFn : Unit → α × List String) :
    Option α × List String :=
  if enabled then
    let r := queryFn ()
    (some r.1, r.2)
  else
    (none, [])

/-- `useApiQuery(key, {path, enabled, transform})`: the query function fetches
`path` (one network request) and applies `transform` to the decoded body;
the `enabled` flag is forwarded to the query-cache library. -/
def useApiQueryRun {α : Type} (path : String) (enabled : Bool)
    (transform : String → α) (net : String → String) : Option α × List String :=
  runUseQuery enabled (fun _ => (transform (net path), [path]))

/-- The value a consumer of the collection sees: the cached data, defaulting
to the empty list when the query exposed none (`data: messages = []`). -/
def exposedValue (q : Option (List Message)) : List Message :=
  q.getD []

section UpdateCollectionLemmas

variable {T : Type} (getId : T → String)

/-- The insert branch of `updateCollection`, rephrased with `List.any`. -/
lemma updateCollection_insert_eq (item : T) (old : List T) :
    updateCollection getId item false old =
      if old.any (fun i => getId i == getId item) then
        old.map (fun i => if getId i == getId item then item else i)
      else old ++ [item] := by
  unfold updateCollection
  simp only [if_neg (Bool.false_ne_true)]
  rcases h : old.findIdx? (fun i => getId i == getId item) with _ | idx
  · rw [List.findIdx?_eq_none_iff] at h
    have : old.any (fun i => getId i == getId item) = false := by
      simp only [List.any_eq_false]
      intro x hx
      simpa using h x hx
    simp [this]
  · have : old.any (fun i => getId i == getId item) = true := by
      by_contra hc
      simp only [Bool.not_eq_true, List.any_eq_false] at hc
      have : old.findIdx? (fun i => getId i == getId item) = none := by
        rw [List.findIdx?_eq_none_iff]
        intro x hx
        simpa using hc x hx
      rw [this] at h
      cases h
    simp [this]

/-- The remove branch of `updateCollection`, rephrased with `List.any`. -/
lemma updateCollection_remove_eq (item : T) (old : List T) :
    updateCollection getId item true old =
      if old.any (fun i => getId i == getId item) then
        old.filter (fun i => getId i != getId item)
      else old := by
  unfold updateCollection
  simp only [if_pos rfl]
  rcases h : old.findIdx? (fun i => getId i == getId item) with _ | idx
  · rw [List.findIdx?_eq_none_iff] at h
    have : old.any (fun i => getId i == getId item) = false := by
      simp only [List.any_eq_false]
      intro x hx
      simpa using h x hx
    simp [this]
  · have : old.any (fun i => getId i == getId item) = true := by
      by_contra hc
      simp only [Bool.not_eq_true, List.any_eq_false] at hc
      have : old.findIdx? (fun i => getId i == getId item) = none := by
        rw [List.findIdx?_eq_none_iff]
        intro x hx
        simpa using hc x hx
      rw [this] at h
      cases h
    simp [this]

/-- Replacing by an identifier that occurs nowhere in the list is the identity. -/
lemma map_replace_eq_self (t : T) (gid : String) (l : List T)
    (h : ∀ x ∈ l, getId x ≠ gid) :
    l.map (fun i => if getId i == gid then t else i) = l := by
  induction l with
  | nil => rfl
  | cons a l ih =>
      have ha : (getId a == gid) = false := by
        simpa using h a (List.mem_cons_self a l)
      simp only [List.map_cons, ha, Bool.false_eq_true, if_false]
      rw [ih (fun x hx => h x (List.mem_cons_of_mem a hx))]

/-- In a list whose identifiers are unique, an occurrence of `m` splits the
list into a left and a right part neither of which mentions `getId m`. -/
lemma nodup_decomp (l1 l2 : List T) (m : T)
    (h : ((l1 ++ m :: l2).map getId).Nodup) :
    (∀ x ∈ l1, getId x ≠ getId m) ∧ (∀ x ∈ l2, getId x ≠ getId m) := by
  rw [List.map_append, List.map_cons, List.nodup_append] at h
  obtain ⟨_, h2, hdisj⟩ := h
  refine ⟨fun x hx heq => ?_, fun x hx heq => ?_⟩
  · exact hdisj (List.mem_map_of_mem getId hx) (heq ▸ List.mem_cons_self _ _)
  · rw [List.nodup_cons] at h2
    exact h2.1 (heq ▸ List.mem_map_of_mem getId hx)

/-- Insert-mode reconciliation on a list containing a matching entry replaces
that entry in place, provided no other entry shares the identifier. -/
lemma updateCollection_replace (t m : T) (l1 l2 : List T)
    (hm : getId m = getId t)
    (h1 : ∀ x ∈ l1, getId x ≠ getId t) (h2 : ∀ x ∈ l2, getId x ≠ getId t) :
    updateCollection getId t false (l1 ++ m :: l2) = l1 ++ t :: l2 := by
  rw [updateCollection_insert_eq]
  have hany : (l1 ++ m :: l2).any (fun i => getId i == getId t) = true := by
    refine List.any_eq_true.mpr ⟨m, ?_, by simp [hm]⟩
    exact List.mem_append_right _ (List.mem_cons_self _ _)
  rw [if_pos hany, List.map_append, List.map_cons]
  rw [map_replace_eq_self getId t _ l1 h1, map_replace_eq_self getId t _ l2 h2]
  simp [hm]

/-- Insert-mode reconciliation with a fresh identifier appends at the end. -/
lemma updateCollection_append (t : T) (l : List T)
    (h : ∀ x ∈ l, getId x ≠ getId t) :
    updateCollection getId t false l = l ++ [t] := by
  rw [updateCollection_insert_eq]
  have hany : l.any (fun i => getId i == getId t) = false := by
    simp only [List.any_eq_false]
    intro x hx
    simpa using h x hx
  rw [hany]
  simp

/-- The identifier sequence after an insert-mode reconciliation: unchanged in
the replace case, extended by the new identifier in the append case. -/
lemma updateCollection_insert_ids (t : T) (l : List T) :
    (updateCollection getId t false l).map getId =
      if l.any (fun i => getId i == getId t) then l.map getId
      else l.map getId ++ [getId t] := by
  rw [updateCollection_insert_eq]
  by_cases h : l.any (fun i => getId i == getId t) = true
  · rw [if_pos h, if_pos h, List.map_map]
    apply List.map_congr_left
    intro a _
    by_cases ha : getId a = getId t
    · simp [ha, Function.comp]
    · simp [ha, Function.comp]
  · rw [if_neg h, if_neg h]
    simp

/-- Insert-mode reconciliation preserves uniqueness of identifiers. -/
lemma updateCollection_insert_nodup (t : T) (l : List T)
    (h : (l.map getId).Nodup) :
    ((updateCollection getId t false l).map getId).Nodup := by
  rw [updateCollection_insert_ids]
  by_cases hany : l.any (fun i => getId i == getId t) = true
  · rw [if_pos hany]; exact h
  · rw [if_neg hany]
    have hnm : getId t ∉ l.map getId := by
      simp only [Bool.not_eq_true, List.any_eq_false] at hany
      intro hmem
      obtain ⟨x, hx, hxe⟩ := List.mem_map.mp hmem
      simpa [hxe] using hany x hx
    simp [List.nodup_append, h, hnm, List.disjoint_singleton]

/-- Remove-mode reconciliation on a list containing a single matching entry
deletes exactly that entry. -/
lemma updateCollection_remove_mem (t m : T) (l1 l2 : List T)
    (hm : getId m = getId t)
    (h1 : ∀ x ∈ l1, getId x ≠ getId t) (h2 : ∀ x ∈ l2, getId x ≠ getId t) :
    updateCollection getId t true (l1 ++ m :: l2) = l1 ++ l2 := by
  rw [updateCollection_remove_eq]
  have hany : (l1 ++ m :: l2).any (fun i => getId i == getId t) = true := by
    refine List.any_eq_true.mpr ⟨m, ?_, by simp [hm]⟩
    exact List.mem_append_right _ (List.mem_cons_self _ _)
  rw [if_pos hany, List.filter_append, List.filter_cons]
  have hm' : (getId m != getId t) = false := by simp [hm]
  rw [hm']
  simp only [Bool.false_eq_true, if_false]
  rw [List.filter_eq_self.mpr (fun a ha => by simpa using h1 a ha),
    List.filter_eq_self.mpr (fun a ha => by simpa using h2 a ha)]

/-- Remove-mode reconciliation with an absent identifier is a no-op. -/
lemma updateCollection_remove_absent (t : T) (l : List T)
    (h : ∀ x ∈ l, getId x ≠ getId t) :
    updateCollection getId t true l = l := by
  rw [updateCollection_remove_eq]
  have hany : l.any (fun i => getId i == getId t) = false := by
    simp only [List.any_eq_false]
    intro x hx
    simpa using h x hx
  rw [hany]
  simp

/-- Remove-mode reconciliation is idempotent on any list. -/
lemma updateCollection_remove_idem (t : T) (l : List T) :
    updateCollection getId t true (updateCollection getId t true l) =
      updateCollection getId t true l := by
  by_cases h : l.any (fun i => getId i == getId t) = true
  · have hfirst : updateCollection getId t true l =
        l.filter (fun i => getId i != getId t) := by
      rw [updateCollection_remove_eq, if_pos h]
    rw [hfirst]
    apply updateCollection_remove_absent
    intro x hx heq
    have := (List.mem_filter.mp hx).2
    simp [heq] at this
  · have hfirst : updateCollection getId t true l = l := by
      rw [updateCollection_remove_eq, if_neg h]
    rw [hfirst, hfirst]

/-- The reconciled entity is always in the result of an insert-mode
reconciliation. -/
lemma self_mem_updateCollection_insert (t : T) (l : List T) :
    t ∈ updateCollection getId t false l := by
  rw [updateCollection_insert_eq]
  by_cases h : l.any (fun i => getId i == getId t) = true
  · rw [if_pos h]
    obtain ⟨x, hx, hxe⟩ := List.any_eq_true.mp h
    refine List.mem_map.mpr ⟨x, hx, ?_⟩
    simp [hxe]
  · rw [if_neg h]
    exact List.mem_append_right _ (List.mem_singleton_self t)

end UpdateCollectionLemmas

/-! ## Lemmas on the streaming placeholder -/

/-- `String.foldl (· ++ ·)` over an arbitrary accumulator. -/
lemma foldl_append_shift (s : String) (l : List String) :
    List.foldl (fun r q => r ++ q) s l = s ++ List.foldl (fun r q => r ++ q) "" l := by
  induction l generalizing s with
  | nil => simp
  | cons a l ih =>
      simp only [List.foldl_cons]
      rw [ih (s ++ a), ih ("" ++ a), String.append_assoc]
      simp

/-- `String.join` distributes over `cons`. -/
lemma join_cons (s : String) (l : List String) :
    String.join (s :: l) = s ++ String.join l := by
  show List.foldl (fun r q => r ++ q) ("" ++ s) l = s ++ String.join l
  rw [foldl_append_shift]
  simp [String.join]

/-- Reconciling an entity whose identifier occurs at most once leaves it as
the unique entry with that identifier. -/
lemma filter_updateCollection_insert_self (t : Message) (l : List Message)
    (h : (l.filter (fun m => m.id == t.id)).length ≤ 1) :
    (updateCollection Message.id t false l).filter (fun m => m.id == t.id) = [t] := by
  rw [updateCollection_insert_eq]
  by_cases hany : l.any (fun i => Message.id i == Message.id t) = true
  · rw [if_pos hany]
    rw [List.filter_map]
    have hcongr : l.filter ((fun m => m.id == t.id) ∘
        (fun i => if Message.id i == Message.id t then t else i)) =
        l.filter (fun m => m.id == t.id) := by
      apply List.filter_congr
      intro a _
      by_cases ha : a.id = t.id
      · simp [Function.comp, ha]
      · simp [Function.comp, ha]
    rw [hcongr]
    obtain ⟨x, hx, hxe⟩ := List.any_eq_true.mp hany
    have hxmem : x ∈ l.filter (fun m => m.id == t.id) :=
      List.mem_filter.mpr ⟨hx, hxe⟩
    cases hf : l.filter (fun m => m.id == t.id) with
    | nil => rw [hf] at hxmem; cases hxmem
    | cons y ys =>
        rw [hf] at h
        have hys : ys = [] := by
          cases ys with
          | nil => rfl
          | cons z zs => simp at h
        subst hys
        have hy : (y.id == t.id) = true := by
          have hmemy : y ∈ l.filter (fun m => m.id == t.id) := by
            rw [hf]
            exact List.mem_cons_self y []
          exact (List.mem_filter.mp hmemy).2
        have hy' : y.id = t.id := by simpa using hy
        simp [hy']
  · rw [if_neg hany]
    rw [List.filter_append]
    have hnil : l.filter (fun m => m.id == t.id) = [] := by
      rw [List.filter_eq_nil_iff]
      intro a ha hpa
      have hcontra : l.any (fun i => Message.id i == Message.id t) = true :=
        List.any_eq_true.mpr ⟨a, ha, hpa⟩
      exact absurd hcontra hany
    rw [hnil]
    simp

/-- Inserting an entity with a different identifier does not change how many
entries carry `gid`. -/
lemma countId_insert_ne (t : Message) (gid : String) (l : List Message)
    (h : t.id ≠ gid) :
    countId gid (updateCollection Message.id t false l) = countId gid l := by
  rw [updateCollection_insert_eq]
  by_cases hany : l.any (fun i => Message.id i == Message.id t) = true
  · rw [if_pos hany]
    unfold countId
    rw [List.filter_map, List.length_map]
    congr 1
    apply List.filter_congr
    intro a _
    by_cases ha : a.id = t.id
    · simp [Function.comp, ha, h]
    · simp [Function.comp, ha]
  · rw [if_neg hany]
    unfold countId
    rw [List.filter_append]
    simp [h]

/-- After a remove-mode reconciliation no entry carries the removed
identifier. -/
lemma countId_remove_self (t : Message) (l : List Message) :
    countId t.id (updateCollection Message.id t true l) = 0 := by
  rw [updateCollection_remove_eq]
  by_cases hany : l.any (fun i => Message.id i == Message.id t) = true
  · rw [if_pos hany]
    unfold countId
    rw [List.filter_filter]
    simp
  · rw [if_neg hany]
    unfold countId
    simp only [List.length_eq_zero, List.filter_eq_nil_iff]
    intro a ha hpa
    have hcontra : l.any (fun i => Message.id i == Message.id t) = true :=
      List.any_eq_true.mpr ⟨a, ha, hpa⟩
    exact absurd hcontra hany

/-- `countId` is the length of the filtered list. -/
lemma countId_eq_one_of_filter (gid : String) (l : List Message) (p : Message)
    (h : l.filter (fun m => m.id == gid) = [p]) : countId gid l = 1 := by
  unfold countId
  rw [h]
  rfl

/-- Invariant of the chunk loop: starting from a cache holding exactly one
entry with the placeholder identifier, every state produced before the
terminal removal holds exactly one such entry, and when an authoritative
`{message}` chunk is reached the last state holds none. -/
lemma replyLoop_countId (tmpId : String) (chunks : List Chunk) (acc : String)
    (cache : List Message)
    (hcount : countId tmpId cache = 1)
    (hm : ∀ m, Chunk.message m ∈ chunks → m.id ≠ tmpId) :
    (hasMessageChunk chunks = false →
      ∀ s ∈ replyLoop tmpId chunks acc cache, countId tmpId s = 1) ∧
    (hasMessageChunk chunks = true →
      (∀ s ∈ (replyLoop tmpId chunks acc cache).dropLast, countId tmpId s = 1) ∧
      ∃ final, (replyLoop tmpId chunks acc cache).getLast? = some final ∧
        countId tmpId final = 0) := by
  induction chunks generalizing acc cache with
  | nil =>
      constructor
      · intro _ s hs
        simp [replyLoop] at hs
      · intro habs
        simp [hasMessageChunk] at habs
  | cons c rest ih =>
      cases c with
      | message m =>
          have hmne : m.id ≠ tmpId := hm m (List.mem_cons_self _ _)
          constructor
          · intro habs
            simp [hasMessageChunk] at habs
          · intro _
            constructor
            · intro s hs
              simp only [replyLoop, List.dropLast] at hs
              rcases List.mem_singleton.mp hs with rfl
              rw [countId_insert_ne m tmpId cache hmne]
              exact hcount
            · refine ⟨updateCollection Message.id ⟨tmpId, "assistant", ""⟩ true
                (updateCollection Message.id m false cache), ?_, ?_⟩
              · simp [replyLoop]
              · exact countId_remove_self ⟨tmpId, "assistant", ""⟩ _
      | delta d =>
          have hm' : ∀ m, Chunk.message m ∈ rest → m.id ≠ tmpId :=
            fun m hmem => hm m (List.mem_cons_of_mem _ hmem)
          have hlen : (cache.filter (fun m : Message => m.id == tmpId)).length ≤ 1 := by
            unfold countId at hcount
            omega
          have hfilt := filter_updateCollection_insert_self
            ⟨tmpId, "assistant", acc ++ d⟩ cache hlen
          have hc1 : countId tmpId
              (updateCollection Message.id ⟨tmpId, "assistant", acc ++ d⟩ false cache) = 1 :=
            countId_eq_one_of_filter tmpId _ ⟨tmpId, "assistant", acc ++ d⟩ hfilt
          have hih := ih (acc ++ d)
            (updateCollection Message.id ⟨tmpId, "assistant", acc ++ d⟩ false cache) hc1 hm'
          have hmsg : hasMessageChunk (Chunk.delta d :: rest) = hasMessageChunk rest := by
            simp [hasMessageChunk]
          constructor
          · intro hfalse s hs
            rw [hmsg] at hfalse
            simp only [replyLoop] at hs
            rcases List.mem_cons.mp hs with rfl | hs
            · exact hc1
            · exact hih.1 hfalse s hs
          · intro htrue
            rw [hmsg] at htrue
            obtain ⟨hdrop, final, hlast, hfinal⟩ := hih.2 htrue
            constructor
            · intro s hs
              simp only [replyLoop] at hs
              cases hx : replyLoop tmpId rest (acc ++ d)
                  (updateCollection Message.id ⟨tmpId, "assistant", acc ++ d⟩ false cache) with
              | nil => rw [hx] at hlast; cases hlast
              | cons y ys =>
                  rw [hx, List.dropLast_cons₂] at hs
                  rcases List.mem_cons.mp hs with rfl | hs
                  · exact hc1
                  · exact hdrop s (by rw [hx]; exact hs)
            · refine ⟨final, ?_, hfinal⟩
              simp only [replyLoop]
              cases hx : replyLoop tmpId rest (acc ++ d)
                  (updateCollection Message.id ⟨tmpId, "assistant", acc ++ d⟩ false cache) with
              | nil => rw [hx] at hlast; cases hlast
              | cons y ys =>
                  rw [List.getLast?_cons_cons, ← hx]
                  exact hlast

/-- On a pure-delta stream, the `n`-th loop state (0-based) holds the
placeholder as its unique `tmpId` entry, with content the accumulator
extended by the first `n + 1` deltas. -/
lemma replyLoop_delta_get (tmpId : String) (ds : List String) (acc : String)
    (cache : List Message)
    (hc : (cache.filter (fun m => m.id == tmpId)).length ≤ 1) :
    ∀ n, n < ds.length → ∃ s,
      (replyLoop tmpId (ds.map Chunk.delta) acc cache).get? n = some s ∧
      s.filter (fun m => m.id == tmpId) =
        [⟨tmpId, "assistant", acc ++ String.join (ds.take (n + 1))⟩] := by
  induction ds generalizing acc cache with
  | nil =>
      intro n hn
      simp at hn
  | cons d ds ih =>
      intro n hn
      have hfilt1 := filter_updateCollection_insert_self
        ⟨tmpId, "assistant", acc ++ d⟩ cache hc
      cases n with
      | zero =>
          refine ⟨updateCollection Message.id ⟨tmpId, "assistant", acc ++ d⟩ false cache,
            rfl, ?_⟩
          have hjoin : acc ++ String.join ((d :: ds).take 1) = acc ++ d := by
            rw [List.take_succ_cons, List.take_zero, join_cons]
            show acc ++ (d ++ String.join []) = acc ++ d
            simp [String.join]
          rw [hjoin]
          exact hfilt1
      | succ k =>
          have hk : k < ds.length := by
            simpa using Nat.lt_of_succ_lt_succ hn
          have hc1 : ((updateCollection Message.id ⟨tmpId, "assistant", acc ++ d⟩ false
              cache).filter (fun m => m.id == tmpId)).length ≤ 1 := by
            have hfilt1' : (updateCollection Message.id ⟨tmpId, "assistant", acc ++ d⟩ false
                cache).filter (fun m => m.id == tmpId) =
                [⟨tmpId, "assistant", acc ++ d⟩] := hfilt1
            rw [hfilt1']
            simp
          obtain ⟨s, hget, hfilt⟩ := ih (acc ++ d)
            (updateCollection Message.id ⟨tmpId, "assistant", acc ++ d⟩ false cache)
            hc1 k hk
          refine ⟨s, hget, ?_⟩
          rw [hfilt]
          have : acc ++ String.join ((d :: ds).take (k + 1 + 1)) =
              acc ++ d ++ String.join (ds.take (k + 1)) := by
            rw [List.take_succ_cons, join_cons, String.append_assoc]
          rw [this]

/-! ## Claim theorems -/

/-- C2: provided the placeholder identifier is fresh for the cache and the
server assigns its own identifiers, every cache state during a reply stream
has exactly one entry with the temporary placeholder identifier, and once the
terminal `{message}` chunk is processed the final state has none. -/
theorem callReply_placeholder_lifecycle (tmpId : String) (chunks : List Chunk)
    (init : List Message)
    (h0 : countId tmpId init = 0)
    (hm : ∀ m, Chunk.message m ∈ chunks → m.id ≠ tmpId) :
    (hasMessageChunk chunks = false →
      ∀ s ∈ callReplyStates tmpId chunks init, countId tmpId s = 1) ∧
    (hasMessageChunk chunks = true →
      (∀ s ∈ (callReplyStates tmpId chunks init).dropLast, countId tmpId s = 1) ∧
      ∃ final, (callReplyStates tmpId chunks init).getLast? = some final ∧
        countId tmpId final = 0) := by
  have hlen : (init.filter (fun m : Message => m.id == tmpId)).length ≤ 1 := by
    unfold countId at h0
    omega
  have hfilt := filter_updateCollection_insert_self (thinkingPlaceholder tmpId) init hlen
  have hc0 : countId tmpId
      (updateCollection Message.id (thinkingPlaceholder tmpId) false init) = 1 :=
    countId_eq_one_of_filter tmpId _ _ hfilt
  have hloop := replyLoop_countId tmpId chunks "" _ hc0 hm
  constructor
  · intro hfalse s hs
    simp only [callReplyStates] at hs
    rcases List.mem_cons.mp hs with rfl | hs
    · exact hc0
    · exact hloop.1 hfalse s hs
  · intro htrue
    obtain ⟨hdrop, final, hlast, hfinal⟩ := hloop.2 htrue
    constructor
    · intro s hs
      simp only [callReplyStates] at hs
      cases hx : replyLoop tmpId chunks ""
          (updateCollection Message.id (thinkingPlaceholder tmpId) false init) with
      | nil => rw [hx] at hlast; cases hlast
      | cons y ys =>
          rw [hx, List.dropLast_cons₂] at hs
          rcases List.mem_cons.mp hs with rfl | hs
          · exact hc0
          · exact hdrop s (by rw [hx]; exact hs)
    · refine ⟨final, ?_, hfinal⟩
      simp only [callReplyStates]
      cases hx : replyLoop tmpId chunks ""
          (updateCollection Message.id (thinkingPlaceholder tmpId) false init) with
      | nil => rw [hx] at hlast; cases hlast
      | cons y ys =>
          rw [List.getLast?_cons_cons, ← hx]
          exact hlast

/-- C6: editing `u1` in `[u1, a1, u2, a2]` issues the PATCH first, then the
DELETEs of `a1`, `u2` and `a2` in that order, and the reply request only
after all removals; the cache at the instant the reply request is issued
holds only the updated `u1`. -/
theorem handleUpdateMessage_truncates (u1 a1 u2 a2 server : Message)
    (hnd : ([u1, a1, u2, a2].map Message.id).Nodup)
    (hs : server.id = u1.id) :
    handleUpdateMessage u1.id server [u1, a1, u2, a2] =
      ([Ev.patchReq u1.id, Ev.deleteReq a1.id, Ev.deleteReq u2.id,
        Ev.deleteReq a2.id, Ev.replyReq], [server]) := by
  simp only [List.map_cons, List.map_nil, List.nodup_cons, List.mem_cons,
    List.not_mem_nil, or_false, not_or, List.nodup_nil, and_true] at hnd
  obtain ⟨⟨h12, h13, h14⟩, ⟨h23, h24⟩, h34, -⟩ := hnd
  have hc1 : updateCollection Message.id server false [u1, a1, u2, a2] =
      [server, a1, u2, a2] := by
    have h2 : ∀ x ∈ [a1, u2, a2], x.id ≠ server.id := by
      intro x hx
      rw [hs]
      rcases List.mem_cons.mp hx with rfl | hx
      · exact fun he => h12 he.symm
      rcases List.mem_cons.mp hx with rfl | hx
      · exact fun he => h13 he.symm
      rcases List.mem_cons.mp hx with rfl | hx
      · exact fun he => h14 he.symm
      · cases hx
    have := updateCollection_replace Message.id server u1 [] [a1, u2, a2] hs.symm
      (fun x hx => absurd hx (List.not_mem_nil x)) h2
    simpa using this
  have hfind : ([server, a1, u2, a2].findIdx? (fun m => m.id == u1.id)) = some 0 := by
    have hsrv : (server.id == u1.id) = true := by simp [hs]
    simp [List.findIdx?_cons, hsrv]
  have hrem1 : updateCollection Message.id ⟨a1.id, "", ""⟩ true [server, a1, u2, a2] =
      [server, u2, a2] := by
    have := updateCollection_remove_mem Message.id ⟨a1.id, "", ""⟩ a1 [server] [u2, a2]
      rfl
      (by
        intro x hx
        rcases List.mem_cons.mp hx with rfl | hx
        · rw [hs]; exact h12
        · cases hx)
      (by
        intro x hx
        rcases List.mem_cons.mp hx with rfl | hx
        · exact fun he => h23 he.symm
        rcases List.mem_cons.mp hx with rfl | hx
        · exact fun he => h24 he.symm
        · cases hx)
    simpa using this
  have hrem2 : updateCollection Message.id ⟨u2.id, "", ""⟩ true [server, u2, a2] =
      [server, a2] := by
    have := updateCollection_remove_mem Message.id ⟨u2.id, "", ""⟩ u2 [server] [a2]
      rfl
      (by
        intro x hx
        rcases List.mem_cons.mp hx with rfl | hx
        · rw [hs]; exact h13
        · cases hx)
      (by
        intro x hx
        rcases List.mem_cons.mp hx with rfl | hx
        · exact fun he => h34 he.symm
        · cases hx)
    simpa using this
  have hrem3 : updateCollection Message.id ⟨a2.id, "", ""⟩ true [server, a2] =
      [server] := by
    have := updateCollection_remove_mem Message.id ⟨a2.id, "", ""⟩ a2 [server] []
      rfl
      (by
        intro x hx
        rcases List.mem_cons.mp hx with rfl | hx
        · rw [hs]; exact h14
        · cases hx)
      (fun x hx => absurd hx (List.not_mem_nil x))
    simpa using this
  simp only [handleUpdateMessage, hc1, hfind, List.drop_succ_cons, List.drop_zero,
    removeLoop, hrem1, hrem2, hrem3, List.cons_append, List.nil_append]

/-- Witness for C6 at concrete messages: the full event trace and the
truncated cache. -/
theorem handleUpdateMessage_truncates_witness :
    handleUpdateMessage "u1" ⟨"u1", "user", "edited"⟩
        [⟨"u1", "user", "x"⟩, ⟨"a1", "assistant", "r"⟩, ⟨"u2", "user", "y"⟩,
          ⟨"a2", "assistant", "s"⟩] =
      ([Ev.patchReq "u1", Ev.deleteReq "a1", Ev.deleteReq "u2", Ev.deleteReq "a2",
        Ev.replyReq], [⟨"u1", "user", "edited"⟩]) :=
  handleUpdateMessage_truncates ⟨"u1", "user", "x"⟩ ⟨"a1", "assistant", "r"⟩
    ⟨"u2", "user", "y"⟩ ⟨"a2", "assistant", "s"⟩ ⟨"u1", "user", "edited"⟩
    (by decide) rfl

/-- C3: on a stream of delta chunks, after processing the `n`-th delta the
cache entry with the temporary placeholder identifier is exactly the
placeholder, its content the concatenation of the first `n` deltas. -/
theorem callReply_delta_accumulation (tmpId : String) (ds : List String)
    (init : List Message)
    (h0 : init.filter (fun m => m.id == tmpId) = []) :
    ∀ n, 1 ≤ n → n ≤ ds.length →
      ∃ s, (callReplyStates tmpId (ds.map Chunk.delta) init).get? n = some s ∧
        s.filter (fun m => m.id == tmpId) =
          [⟨tmpId, "assistant", String.join (ds.take n)⟩] := by
  intro n h1 h2
  have hlen : (init.filter (fun m : Message => m.id == tmpId)).length ≤ 1 := by
    rw [h0]
    simp
  have hfilt0 := filter_updateCollection_insert_self (thinkingPlaceholder tmpId) init hlen
  have hc0 : ((updateCollection Message.id (thinkingPlaceholder tmpId) false
      init).filter (fun m => m.id == tmpId)).length ≤ 1 := by
    have hfilt0' : (updateCollection Message.id (thinkingPlaceholder tmpId) false
        init).filter (fun m => m.id == tmpId) = [thinkingPlaceholder tmpId] := hfilt0
    rw [hfilt0']
    simp
  cases n with
  | zero => omega
  | succ k =>
      have hk : k < ds.length := by omega
      obtain ⟨s, hget, hfilt⟩ := replyLoop_delta_get tmpId ds ""
        (updateCollection Message.id (thinkingPlaceholder tmpId) false init) hc0 k hk
      refine ⟨s, ?_, ?_⟩
      · simp only [callReplyStates, List.get?_cons_succ]
        exact hget
      · rw [hfilt]
        have hje : ("" : String) ++ String.join (ds.take (k + 1)) =
            String.join (ds.take (k + 1)) := by
          simp
        rw [hje]

/-- Witness for C3 at a concrete stream of two deltas: after the second delta
the placeholder holds the full concatenated buffer. -/
theorem callReply_delta_accumulation_witness :
    ∃ s, (callReplyStates "tmp" (["He", "llo"].map Chunk.delta)
        [⟨"u1", "user", "hi"⟩]).get? 2 = some s ∧
      s.filter (fun m => m.id == "tmp") =
        [⟨"tmp", "assistant", String.join (["He", "llo"].take 2)⟩] :=
  callReply_delta_accumulation "tmp" ["He", "llo"] [⟨"u1", "user", "hi"⟩]
    (by decide) 2 (by decide) (by decide)

/-- Witness for C2 at a concrete stream: one delta then the authoritative
message; the final state carries no placeholder entry. -/
theorem callReply_placeholder_lifecycle_witness :
    ∃ final,
      (callReplyStates "tmp"
          [Chunk.delta "He", Chunk.message ⟨"srv", "assistant", "He"⟩]
          [⟨"u1", "user", "hi"⟩]).getLast? = some final ∧
        countId "tmp" final = 0 := by
  have h := callReply_placeholder_lifecycle "tmp"
    [Chunk.delta "He", Chunk.message ⟨"srv", "assistant", "He"⟩]
    [⟨"u1", "user", "hi"⟩] (by decide)
    (by
      intro m hmem
      simp only [List.mem_cons, List.not_mem_nil, or_false] at hmem
      rcases hmem with h | h
      · exact Chunk.noConfusion h
      · injection h with h'
        subst h'
        decide)
  exact (h.2 (by decide)).2

/-- C1: in insert mode, `updateCollection` replaces a matching entry in place
(same position, every other entry unchanged) and appends when the identifier
is new; on the concrete example, reconciling `{id:"a",content:"y"}` into
`[{id:"a",content:"x"}]` yields `[{id:"a",content:"y"}]`; and a list with
unique identifiers keeps unique identifiers. -/
theorem updateCollection_insert_reconciles (l : List Message) (t : Message)
    (hnd : (l.map Message.id).Nodup) :
    (∀ l1 m l2, l = l1 ++ m :: l2 → m.id = t.id →
      updateCollection Message.id t false l = l1 ++ t :: l2) ∧
    (t.id ∉ l.map Message.id → updateCollection Message.id t false l = l ++ [t]) ∧
    ((updateCollection Message.id t false l).map Message.id).Nodup ∧
    updateCollection Message.id ⟨"a", "assistant", "y"⟩ false
        [⟨"a", "assistant", "x"⟩] = [⟨"a", "assistant", "y"⟩] := by
  refine ⟨?_, ?_, ?_, by decide⟩
  · rintro l1 m l2 rfl hm
    have hd := nodup_decomp Message.id l1 l2 m hnd
    exact updateCollection_replace Message.id t m l1 l2 hm
      (fun x hx => by rw [← hm]; exact hd.1 x hx)
      (fun x hx => by rw [← hm]; exact hd.2 x hx)
  · intro hmem
    apply updateCollection_append
    intro x hx heq
    exact hmem (heq ▸ List.mem_map_of_mem Message.id hx)
  · exact updateCollection_insert_nodup Message.id t l hnd

/-- Witness for C1 at a concrete input: the matching singleton list is
replaced in place. -/
theorem updateCollection_insert_reconciles_witness :
    updateCollection Message.id ⟨"a", "assistant", "y"⟩ false
        [⟨"a", "assistant", "x"⟩] =
      ([] : List Message) ++ ⟨"a", "assistant", "y"⟩ :: [] :=
  (updateCollection_insert_reconciles [⟨"a", "assistant", "x"⟩]
      ⟨"a", "assistant", "y"⟩ (by decide)).1 [] ⟨"a", "assistant", "x"⟩ [] rfl rfl

/-- C4: the remove branch deletes exactly the matching entry when one exists,
is a no-op when the identifier is absent, and removing the same identifier
twice equals removing it once. -/
theorem updateCollection_remove_spec (l : List Message) (t : Message)
    (hnd : (l.map Message.id).Nodup) :
    (t.id ∉ l.map Message.id → updateCollection Message.id t true l = l) ∧
    (∀ l1 m l2, l = l1 ++ m :: l2 → m.id = t.id →
      updateCollection Message.id t true l = l1 ++ l2) ∧
    updateCollection Message.id t true (updateCollection Message.id t true l) =
      updateCollection Message.id t true l := by
  refine ⟨?_, ?_, updateCollection_remove_idem Message.id t l⟩
  · intro hmem
    apply updateCollection_remove_absent
    intro x hx heq
    exact hmem (heq ▸ List.mem_map_of_mem Message.id hx)
  · rintro l1 m l2 rfl hm
    have hd := nodup_decomp Message.id l1 l2 m hnd
    exact updateCollection_remove_mem Message.id t m l1 l2 hm
      (fun x hx => by rw [← hm]; exact hd.1 x hx)
      (fun x hx => by rw [← hm]; exact hd.2 x hx)

/-- Witness for C4 at a concrete input: removing `"a"` twice from a singleton
equals removing it once. -/
theorem updateCollection_remove_spec_witness :
    updateCollection Message.id ⟨"a", "", ""⟩ true
        (updateCollection Message.id ⟨"a", "", ""⟩ true [⟨"a", "user", "x"⟩]) =
      updateCollection Message.id ⟨"a", "", ""⟩ true [⟨"a", "user", "x"⟩] :=
  (updateCollection_remove_spec [⟨"a", "user", "x"⟩] ⟨"a", "", ""⟩ (by decide)).2.2

/-- C5: a successful `addItem` reconciles the returned entity into the cache:
appended when its identifier is new, substituted in place when it is already
present; the entity is in the resulting cache and identifier uniqueness is
preserved. -/
theorem addItem_success_reconciles (res : Response Message) (cache : List Message)
    (hok : res.ok = true) (hnd : (cache.map Message.id).Nodup) :
    (res.body.id ∉ cache.map Message.id →
      (addItemRun res cache).1 = cache ++ [res.body]) ∧
    (∀ l1 m l2, cache = l1 ++ m :: l2 → m.id = res.body.id →
      (addItemRun res cache).1 = l1 ++ res.body :: l2) ∧
    res.body ∈ (addItemRun res cache).1 ∧
    ((addItemRun res cache).1.map Message.id).Nodup := by
  have hrun : (addItemRun res cache).1 =
      updateCollection Message.id res.body false cache := by
    simp [addItemRun, hok]
  refine ⟨?_, ?_, ?_, ?_⟩
  · intro hmem
    rw [hrun]
    apply updateCollection_append
    intro x hx heq
    exact hmem (heq ▸ List.mem_map_of_mem Message.id hx)
  · rintro l1 m l2 rfl hm
    rw [hrun]
    have hd := nodup_decomp Message.id l1 l2 m hnd
    exact updateCollection_replace Message.id res.body m l1 l2 hm
      (fun x hx => by rw [← hm]; exact hd.1 x hx)
      (fun x hx => by rw [← hm]; exact hd.2 x hx)
  · rw [hrun]
    exact self_mem_updateCollection_insert Message.id res.body cache
  · rw [hrun]
    exact updateCollection_insert_nodup Message.id res.body cache hnd

/-- Witness for C5 at a concrete input: a successful POST whose body has a
fresh identifier appends it to the cache. -/
theorem addItem_success_reconciles_witness :
    (addItemRun ⟨true, ⟨"b", "user", "hi"⟩⟩ [⟨"a", "user", "x"⟩]).1 =
      [⟨"a", "user", "x"⟩] ++ [⟨"b", "user", "hi"⟩] :=
  (addItem_success_reconciles ⟨true, ⟨"b", "user", "hi"⟩⟩ [⟨"a", "user", "x"⟩]
      rfl (by decide)).1 (by decide)

/-- C7: a failed (non-2xx) `addItem`, `updateItem` or `removeItem` leaves the
cached list exactly as it was and raises an error to the caller. -/
theorem failed_mutation_leaves_cache (resA resU : Response Message)
    (resR : Response Unit) (gid : String) (cache : List Message)
    (hA : resA.ok = false) (hU : resU.ok = false) (hR : resR.ok = false) :
    (addItemRun resA cache).1 = cache ∧
    (addItemRun resA cache).2 = Except.error "Failed to add item" ∧
    (updateItemRun resU cache).1 = cache ∧
    (updateItemRun resU cache).2 = Except.error "Failed to update item" ∧
    (removeItemRun resR gid cache).1 = cache ∧
    (removeItemRun resR gid cache).2 = Except.error "Failed to remove item" := by
  simp [addItemRun, updateItemRun, removeItemRun, hA, hU, hR]

/-- Witness for C7 at a concrete input: a failed DELETE leaves the cache
untouched and raises. -/
theorem failed_mutation_leaves_cache_witness :
    (addItemRun ⟨false, ⟨"b", "user", "hi"⟩⟩ [⟨"a", "user", "x"⟩]).1 =
        [⟨"a", "user", "x"⟩] ∧
      (removeItemRun ⟨false, ()⟩ "a" [⟨"a", "user", "x"⟩]).1 = [⟨"a", "user", "x"⟩] := by
  have h := failed_mutation_leaves_cache ⟨false, ⟨"b", "user", "hi"⟩⟩
    ⟨false, ⟨"b", "user", "hi"⟩⟩ ⟨false, ()⟩ "a" [⟨"a", "user", "x"⟩] rfl rfl rfl
  exact ⟨h.1, h.2.2.2.2.1⟩

/-- C8: the transport adapter targets `baseUrl ++ path`; when a credential is
present it carries `Authorization: Bearer <credential>`, and when none is
present the options (headers included) pass through unchanged. -/
theorem useApiFetch_base_and_bearer (baseUrl : String) (token : Option String)
    (path : String) (options : RequestOptions) :
    (useApiFetch baseUrl token path options).url = baseUrl ++ path ∧
    (∀ t, token = some t → t ≠ "" →
      ("Authorization", "Bearer " ++ t) ∈
        (useApiFetch baseUrl token path options).options.headers) ∧
    (tokenTruthy token = false →
      useApiFetch baseUrl token path options =
        { url := baseUrl ++ path, options := options }) := by
  refine ⟨rfl, ?_, ?_⟩
  · rintro t rfl ht
    have htr : tokenTruthy (some t) = true := by
      simp [tokenTruthy, ht]
    simp only [useApiFetch, htr, if_pos]
    exact List.mem_append_right _ (List.mem_singleton_self _)
  · intro hfalse
    simp only [useApiFetch, hfalse, Bool.false_eq_true, if_false]

/-- Witness for C8 at concrete inputs: the bearer header is attached for a
present credential, and an absent credential leaves the request unchanged. -/
theorem useApiFetch_base_and_bearer_witness :
    ("Authorization", "Bearer " ++ "tok") ∈
        (useApiFetch "https://api" (some "tok") "/p"
          ⟨some "POST", [("X", "1")], none⟩).options.headers ∧
      useApiFetch "https://api" none "/p" ⟨some "POST", [("X", "1")], none⟩ =
        { url := "https://api" ++ "/p",
          options := ⟨some "POST", [("X", "1")], none⟩ } := by
  have h1 := useApiFetch_base_and_bearer "https://api" (some "tok") "/p"
    ⟨some "POST", [("X", "1")], none⟩
  have h2 := useApiFetch_base_and_bearer "https://api" none "/p"
    ⟨some "POST", [("X", "1")], none⟩
  exact ⟨h1.2.1 "tok" rfl (by decide), h2.2.2 rfl⟩

/-- C9: a query configured with `enabled = false` issues no network request
and the consumer sees the default empty list. -/
theorem disabled_query_skips_fetch (path : String)
    (transform : String → List Message) (net : String → String) :
    useApiQueryRun path false transform net = (none, []) ∧
    exposedValue (useApiQueryRun path false transform net).1 = [] := by
  constructor <;> simp [useApiQueryRun, runUseQuery, exposedValue]

/-- C10: with a credential present, the session credential overwrites any
caller-supplied `Authorization` header (case-insensitively), while every
other header and every other option field is forwarded unchanged. -/
theorem useApiFetch_overwrites_authorization (baseUrl path t : String)
    (ht : t ≠ "") (options : RequestOptions) :
    (∀ n v, (n, v) ∈ (useApiFetch baseUrl (some t) path options).options.headers →
      lowerName n = lowerName "Authorization" →
      (n, v) = ("Authorization", "Bearer " ++ t)) ∧
    ("Authorization", "Bearer " ++ t) ∈
      (useApiFetch baseUrl (some t) path options).options.headers ∧
    (useApiFetch baseUrl (some t) path options).options.headers.filter
        (fun p => lowerName p.1 != lowerName "Authorization") =
      options.headers.filter (fun p => lowerName p.1 != lowerName "Authorization") ∧
    (useApiFetch baseUrl (some t) path options).options.method = options.method ∧
    (useApiFetch baseUrl (some t) path options).options.body = options.body ∧
    (useApiFetch baseUrl (some t) path options).url = baseUrl ++ path := by
  have htr : tokenTruthy (some t) = true := by simp [tokenTruthy, ht]
  have hh : (useApiFetch baseUrl (some t) path options).options.headers =
      options.headers.filter (fun p => lowerName p.1 != lowerName "Authorization")
        ++ [("Authorization", "Bearer " ++ t)] := by
    simp [useApiFetch, htr, headersSet]
  refine ⟨?_, ?_, ?_, rfl, rfl, rfl⟩
  · intro n v hmem hn
    rw [hh] at hmem
    rcases List.mem_append.mp hmem with hmem | hmem
    · have := (List.mem_filter.mp hmem).2
      simp only [hn] at this
      simp at this
    · simpa using hmem
  · rw [hh]
    exact List.mem_append_right _ (List.mem_singleton_self _)
  · rw [hh, List.filter_append, List.filter_filter]
    have hauth : (lowerName "Authorization" != lowerName "Authorization") = false := by
      simp
    simp only [List.filter_cons, hauth, Bool.false_eq_true, if_false, List.filter_nil,
      List.append_nil, Bool.and_self]

/-- Witness for C10 at concrete inputs: a caller-supplied `authorization`
header is overwritten by the session credential and the other header is
forwarded. -/
theorem useApiFetch_overwrites_authorization_witness :
    ("Authorization", "Bearer " ++ "tok") ∈
        (useApiFetch "https://api" (some "tok") "/p"
          ⟨none, [("authorization", "Bearer old"), ("X", "1")], none⟩).options.headers ∧
      (useApiFetch "https://api" (some "tok") "/p"
          ⟨none, [("authorization", "Bearer old"), ("X", "1")], none⟩).options.headers.filter
          (fun p => lowerName p.1 != lowerName "Authorization") = [("X", "1")] := by
  have h := useApiFetch_overwrites_authorization "https://api" "/p" "tok" (by decide)
    ⟨none, [("authorization", "Bearer old"), ("X", "1")], none⟩
  refine ⟨h.2.1, ?_⟩
  rw [h.2.2.1]
  decide

end LlmApp
